import Mathlib

/-!
Verification of the company-name → ticker matching core.

Shallow embedding of the matching pipeline: the name normalizer
(company_name_cleaner.py and the text_processing services), the ETF keyword
filter (etf_detector.py / etf_keyword_checker_service.py), the raw-data
preparation pipeline (data_filters.py / raw_data_processor_service.py), the
exact-match stage (exact_match_finder_service.py), the fuzzy result preparer
(match_result_preparer_service.py), the OpenAI fallback
(openai_fallback_service.py / openai_response_processor_service.py /
text_extractor.py) and the strategy orchestrator
(strategy_orchestrator_service.py).

Python strings are modelled as `List Char` (named `Str` below); pandas
DataFrames as lists of row structures with `Option` fields for nullable
cells; floats as `ℚ` (the pipeline only copies and compares scores, so no
rounding behaviour is at stake in the embedded fragment); the OpenAI
transport as an `Option Str` input (`none` = transport failure, modelling
the `except` branch).
-/

set_option maxRecDepth 20000

/-- Python strings, modelled as lists of characters. -/
abbrev Str := List Char

/-- Python whitespace as used by `str.strip()` and the regex class `\s`
(ASCII range). -/
def pyIsSpace (c : Char) : Bool :=
  c = ' ' || c = '\t' || c = '\n' || c = '\r' || c = '\x0b' || c = '\x0c'

/-- ASCII lowercasing of one character; models what Python `str.lower()`
does on the ASCII range (identical to `Char.toLower`). -/
def toLowerChar (c : Char) : Char :=
  if 'A' ≤ c ∧ c ≤ 'Z' then Char.ofNat (c.toNat + 32) else c

/-- TextCaseConverterService.convert_to_lowercase: `text.lower()`. -/
def convert_to_lowercase (t : Str) : Str := t.map toLowerChar

/-- Characters kept by the alphanumeric cleaner: `[a-z0-9 ]`. -/
def isKeptChar (c : Char) : Bool :=
  ('a' ≤ c && c ≤ 'z') || ('0' ≤ c && c ≤ '9') || c = ' '

/-- AlphanumericCleanerService.clean_to_alphanumeric:
`re.sub(r"[^a-z0-9 ]", "", text)`. -/
def clean_to_alphanumeric (t : Str) : Str := t.filter isKeptChar

/-- Settings.COMPANY_SUFFIXES from settings.py, in source order. -/
def COMPANY_SUFFIXES : List Str :=
  [" inc".data, " corporation".data, " corp".data, " ltd".data, " llc".data,
   " co".data, " - common stock".data, "- common stock".data,
   " common stock".data, " incorporated".data, " plc".data, " group".data,
   " holdings".data, " company".data, " companies".data, " lp".data,
   " ag".data, " sa".data, " nv".data, " spa".data, " srl".data,
   " limited".data, " the".data, " and".data, " of".data, " dba".data,
   " llp".data, " pty".data, " s p a".data, " s a".data]

/-- Python `text.endswith(sfx)`. -/
def endsWithL (t sfx : Str) : Bool := sfx.isSuffixOf t

/-- One step of the suffix loop body: `if text.endswith(suffix): text = text[:-len(suffix)]`. -/
def stripOneSuffix (t : Str) (sfx : Str) : Str :=
  if endsWithL t sfx then t.take (t.length - sfx.length) else t

/-- SuffixRemoverService.remove_company_suffixes: a single `for` pass over
COMPANY_SUFFIXES, stripping each matching suffix from the current text. -/
def remove_company_suffixes (t : Str) : Str :=
  COMPANY_SUFFIXES.foldl stripOneSuffix t

/-- Helper for `re.sub(r"\s+", " ", text)`: the flag records whether the
scanner is inside a whitespace run whose single replacement space has
already been emitted. -/
def collapseWsAux : Bool → Str → Str
  | _, [] => []
  | inRun, c :: cs =>
    if pyIsSpace c then
      if inRun then collapseWsAux true cs else ' ' :: collapseWsAux true cs
    else c :: collapseWsAux false cs

/-- The substitution `re.sub(r"\s+", " ", text)`: every maximal whitespace
run becomes a single space. -/
def collapseWs (t : Str) : Str := collapseWsAux false t

/-- Drop trailing whitespace (the right half of Python `str.strip()`). -/
def dropTrailingWs : Str → Str
  | [] => []
  | c :: cs =>
    match dropTrailingWs cs with
    | [] => if pyIsSpace c then [] else [c]
    | r => c :: r

/-- Python `str.strip()`. -/
def stripPy (t : Str) : Str := dropTrailingWs (t.dropWhile pyIsSpace)

/-- WhitespaceNormalizerService.normalize_whitespace:
`re.sub(r"\s+", " ", text).strip()`. -/
def normalize_whitespace (t : Str) : Str := stripPy (collapseWs t)

/-- preprocess_company_name on character lists: the chain
lowercased → alphanumeric_only → without_suffixes → normalized_whitespace
from company_name_cleaner.py. -/
def preprocessL (t : Str) : Str :=
  normalize_whitespace (remove_company_suffixes (clean_to_alphanumeric (convert_to_lowercase t)))

/-- company_name_cleaner.preprocess_company_name for string input. -/
def preprocess_company_name (s : String) : String :=
  String.mk (preprocessL s.data)

/-! ## Data model: DataFrame rows and the six-slot result tuple -/

/-- A row of the prepared tickers DataFrame: columns `ticker`, `title`,
`preprocessed_title`; `ticker` is nullable. -/
structure Entry where
  ticker : Option Str
  title : Str
  preprocessed_title : Str
deriving DecidableEq

/-- One element of the `top_matches` list: the dict
`{"Rank", "company_name", "ticker", "name_match_score"}`. -/
structure TopMatch where
  Rank : Nat
  company_name : Str
  ticker : Option Str
  name_match_score : ℚ
deriving DecidableEq

/-- The six-slot result tuple `(matched_name, predicted_ticker,
all_possible_tickers, score, message, top_matches)` shared by every stage.
`all_possible_tickers` holds `Option Str` because the fallback stage can
put a Python `None` in this list. -/
structure MatchTuple where
  matched_name : Option Str
  predicted_ticker : Option Str
  all_possible_tickers : List (Option Str)
  name_match_score : ℚ
  message : Option Str
  top_matches : List TopMatch
deriving DecidableEq

/-- The failure tuple `(None, None, [], 0, message, [])`. -/
def notFoundTuple (msg : Str) : MatchTuple :=
  ⟨none, none, [], 0, some msg, []⟩

/-! ## Exact match stage (exact_match_finder_service.py) -/

/-- The result tuple the exact-match finder builds from the first matching
row: score 100, a single rank-1 TopMatch, and either one ticker or an
empty ticker list plus a warning message when the row has no ticker. -/
def exactOutcome (e : Entry) : MatchTuple :=
  match e.ticker with
  | some t =>
    ⟨some e.title, some t, [some t], 100, none, [⟨1, e.title, some t, 100⟩]⟩
  | none =>
    ⟨some e.title, none, [], 100, some "No ticker found for company".data,
     [⟨1, e.title, none, 100⟩]⟩

/-- ExactMatchFinderService.find_exact_match: filter rows whose lowercased
`title` equals the lowercased query, return `None` if none, else build the
result from the first matching row only. -/
def find_exact_match (company_name : Str) (tickers_df : List Entry) : Option MatchTuple :=
  let exact_matches := tickers_df.filter
    (fun e => convert_to_lowercase e.title == convert_to_lowercase company_name)
  match exact_matches with
  | [] => none
  | first_match :: _ => some (exactOutcome first_match)

/-! ## Fuzzy result preparer (match_result_preparer_service.py) -/

/-- One element of `candidates_with_scores`: the dict holding the matched
DataFrame row (its `title` and `ticker`) and the three scores. -/
structure Scored where
  row_title : Str
  row_ticker : Option Str
  fuzzy_score : ℚ
  vector_score : ℚ
  combined_score : ℚ
deriving DecidableEq

/-- Comparison used by `candidates_with_scores.sort(key=lambda x:
x["combined_score"], reverse=True)`: a sorts before b when b's combined
score is at most a's. -/
def byCombinedDesc (a b : Scored) : Prop := b.combined_score ≤ a.combined_score

instance : DecidableRel byCombinedDesc := fun a b =>
  inferInstanceAs (Decidable (b.combined_score ≤ a.combined_score))

instance : IsTotal Scored byCombinedDesc :=
  ⟨fun a b => le_total b.combined_score a.combined_score⟩

instance : IsTrans Scored byCombinedDesc :=
  ⟨fun _ _ _ h h2 => le_trans h2 h⟩

/-- Python's stable in-place sort by combined score, descending. Any stable
sort computes the same list, so insertion sort is used. -/
def sortByCombinedDesc (cs : List Scored) : List Scored :=
  List.insertionSort byCombinedDesc cs

/-- Accumulate `dict.fromkeys`-style first-seen deduplication: `seen` holds
the already-emitted keys in reverse order. -/
def dedupFirstAux {α : Type} [DecidableEq α] : List α → List α → List α
  | [], seen => seen.reverse
  | a :: as, seen =>
    if a ∈ seen then dedupFirstAux as seen else dedupFirstAux as (a :: seen)

/-- Python `list(dict.fromkeys(l))`: remove duplicates, keeping the first
occurrence of each value, preserving order. -/
def dedupFirst {α : Type} [DecidableEq α] (l : List α) : List α :=
  dedupFirstAux l []

/-- The loop body over `enumerate(candidates_with_scores[:max_candidates])`:
when the row's ticker is non-null, append it to `all_possible_tickers` and
append a TopMatch with `Rank = i + 1` to `top_matches`. -/
def matchListsStep (acc : List Str × List TopMatch) (ic : Nat × Scored) :
    List Str × List TopMatch :=
  match ic.2.row_ticker with
  | some t =>
    (acc.1 ++ [t],
     acc.2 ++ [⟨ic.1 + 1, ic.2.row_title, some t, ic.2.combined_score⟩])
  | none => acc

/-- The whole loop, producing (all_possible_tickers before dedup, top_matches). -/
def buildMatchLists (taken : List (Nat × Scored)) : List Str × List TopMatch :=
  taken.foldl matchListsStep ([], [])

/-- MatchResultPreparerService.prepare_match_results. Returns `none` for an
empty candidate list (the source would raise an IndexError there; both
callers guard against it). -/
def prepare_match_results (candidates_with_scores : List Scored) : Option MatchTuple :=
  let sorted := sortByCombinedDesc candidates_with_scores
  match sorted with
  | [] => none
  | best_candidate :: _ =>
    let ticker := best_candidate.row_ticker
    -- is_perfect_match = combined_score >= 100.0; then only 1 candidate
    let max_candidates :=
      if (100 : ℚ) ≤ best_candidate.combined_score then 1 else sorted.length
    let lists := buildMatchLists ((sorted.take max_candidates).enum)
    some ⟨some best_candidate.row_title, ticker, (dedupFirst lists.1).map some,
          best_candidate.combined_score, none, lists.2⟩

/-! ## OpenAI fallback (text_extractor.py, openai_response_processor_service.py,
openai_candidate_preparer_service.py, openai_fallback_service.py) -/

/-- One candidate dict sent to / reconciled against the model:
`{"company_name", "ticker", "score"}`. -/
structure OAICandidate where
  company_name : Str
  ticker : Option Str
  score : ℚ
deriving DecidableEq

/-- The label prefixes stripped from a model response before parsing. -/
def PREFIXES_TO_REMOVE : List Str :=
  ["Legal Company Name: ".data, "Best match: ".data, "Company: ".data,
   "Match: ".data]

/-- The prefix-stripping loop of extract_company_and_ticker: strip the
first matching label (then `break`). -/
def removeLeadingLabel : List Str → Str → Str
  | [], t => t
  | p :: ps, t =>
    if p.isPrefixOf t then stripPy (t.drop p.length) else removeLeadingLabel ps t

/-- Python `sep in text` (substring containment). -/
def containsSub : Str → Str → Bool
  | [], sep => sep.isEmpty
  | c :: rest, sep => sep.isPrefixOf (c :: rest) || containsSub rest sep

/-- Python `text.split(sep)` for a non-empty separator, with a fuel
argument (`fuel ≥ text.length` suffices) to keep the recursion structural. -/
def splitOnAux (sep : Str) : Nat → Str → Str → List Str
  | _, [], acc => [acc.reverse]
  | 0, t, acc => [acc.reverse ++ t]
  | fuel + 1, c :: rest, acc =>
    if sep.isPrefixOf (c :: rest) then
      acc.reverse :: splitOnAux sep fuel ((c :: rest).drop sep.length) []
    else splitOnAux sep fuel rest (c :: acc)

/-- Python `text.split(sep)` (non-empty separator). -/
def splitOnL (t sep : Str) : List Str := splitOnAux sep t.length t []

/-- text_extractor.extract_company_and_ticker: strip, drop a leading label,
then either parse the `Name (Ticker: SYMBOL)` shape (removing every `)`
from the symbol part) or return the whole trimmed text with no ticker. -/
def extract_company_and_ticker (text0 : Str) : Str × Option Str :=
  let text1 := stripPy text0
  let text := removeLeadingLabel PREFIXES_TO_REMOVE text1
  if containsSub text " (Ticker:".data && endsWithL text ")".data then
    let parts := splitOnL text " (Ticker:".data
    let company_name := stripPy (parts.getD 0 [])
    let ticker := stripPy ((parts.getD 1 []).filter (fun c => c ≠ ')'))
    (company_name, some ticker)
  else (stripPy text, none)

/-- OpenAIResponseProcessorService.process_matching_response: reconcile the
parsed company name against the candidates, else accept a fresh
(name, ticker) with score 95.0 unless the answer is "none"
(case-insensitively). -/
def process_matching_response (answer : Str) (candidates : List OAICandidate) :
    Str × Option OAICandidate :=
  let openai_pair := extract_company_and_ticker answer
  let selected := candidates.find?
    (fun c => (extract_company_and_ticker c.company_name).1 == openai_pair.1)
  let selected := match selected with
    | some c => some c
    | none =>
      if convert_to_lowercase answer == "none".data then none
      else some ⟨openai_pair.1, openai_pair.2, 95⟩
  (answer, selected)

/-- OpenAICandidatePreparerService.prepare_openai_candidates: for each
fallback match (preprocessed title, score), look up the first DataFrame row
with that preprocessed title and emit its (title, ticker) with the score. -/
def prepare_openai_candidates (fallback_matches : List (Str × ℚ))
    (tickers_df : List Entry) : List OAICandidate :=
  fallback_matches.foldl
    (fun acc m =>
      match tickers_df.find? (fun e => e.preprocessed_title == m.1) with
      | some e => acc ++ [⟨e.title, e.ticker, m.2⟩]
      | none => acc)
    []

/-- OpenAIFallbackService.try_openai_fallback. `transport` is the stripped
response text from the request service; `none` models the `except` branch
(any transport failure). -/
def try_openai_fallback (transport : Option Str) (candidates : List OAICandidate) :
    MatchTuple :=
  match transport with
  | none => notFoundTuple "OpenAI service error".data
  | some answer =>
    let pr := process_matching_response answer candidates
    match pr.2 with
    | none => notFoundTuple "Company is not in public company list".data
    | some selected =>
      if pr.1 == "None".data then
        notFoundTuple "Company is not in public company list".data
      else
        ⟨some selected.company_name, selected.ticker, [selected.ticker],
         selected.score, none,
         [⟨1, selected.company_name, selected.ticker, selected.score⟩]⟩

/-! ## Strategy orchestrator (strategy_orchestrator_service.py) -/

/-- The orchestrator's query argument: a Python string or any non-string
value (`isinstance(name, str)` is the only thing the code asks of it). -/
inductive PyVal where
  | str (s : Str)
  | nonStr
deriving DecidableEq

/-- What the injected fuzzy matcher returns: the six-slot tuple, plus the
unfiltered fuzzy-match pool which the source stores in slot 5 of the tuple
on the failure path and the orchestrator reads back for the fallback. -/
structure FuzzyStageOut where
  result : MatchTuple
  pool : List (Str × ℚ)

/-- StrategyOrchestratorService.orchestrate_matching_strategy, parameterized
over the injected fuzzy matcher and the OpenAI availability/transport
(the exact matcher is the concrete find_exact_match above). -/
def orchestrate_matching_strategy
    (fuzzy_matcher : Str → List Entry → FuzzyStageOut)
    (openai_available : Bool) (transport : Option Str)
    (name : PyVal) (tickers_df : List Entry) : MatchTuple :=
  match name with
  | .nonStr => notFoundTuple "Company is not in public company list".data
  | .str s =>
    match find_exact_match s tickers_df with
    | some exact_result => exact_result
    | none =>
      let name_processed := preprocessL s
      let fuzzy_result := fuzzy_matcher name_processed tickers_df
      if fuzzy_result.result.matched_name.isSome then fuzzy_result.result
      else if openai_available then
        try_openai_fallback transport
          (prepare_openai_candidates fuzzy_result.pool tickers_df)
      else notFoundTuple "Company is not in public company list".data

/-! ## Raw reference-data preparation (data_filters.py,
raw_data_processor_service.py, etf_keyword_checker_service.py) -/

/-- Settings.ETF_KEYWORDS from settings.py, in source order. -/
def ETF_KEYWORDS : List Str :=
  ["etf".data, "fund".data, "trust".data, "index".data, "spdr".data,
   "ishares".data, "vanguard".data, "invesco".data, "direxion".data,
   "proshares".data, "wisdomtree".data, "first trust".data, "global x".data,
   "pacer".data, "vaneck".data, "blackrock".data, "amplify".data, "ark".data,
   "bull".data, "bear".data, "leveraged".data, "inverse".data, "daily".data,
   "2x".data, "3x".data, "ultra".data, "short".data, "long".data]

/-- ETFKeywordCheckerService.check_etf_keywords: false on null or empty
name, else search the lowercased name for any keyword
(`re.search("|".join(keywords), name.lower())`). -/
def check_etf_keywords (company_name : Option Str) : Bool :=
  match company_name with
  | none => false
  | some s =>
    if s.isEmpty then false
    else ETF_KEYWORDS.any (fun k => containsSub (convert_to_lowercase s) k)

/-- A row of the raw Alpha Vantage listing DataFrame (the columns the
processing pipeline reads; every cell nullable). -/
structure RawRow where
  symbol : Option Str
  name : Option Str
  assetType : Option Str
deriving DecidableEq

/-- data_filters.filter_by_asset_type: keep rows with assetType == "Stock"
(the assetType column is present in provider data). -/
def filter_by_asset_type (df : List RawRow) : List RawRow :=
  df.filter (fun r => r.assetType == some "Stock".data)

/-- data_filters.filter_etfs: drop rows whose name matches an ETF keyword. -/
def filter_etfs (df : List RawRow) : List RawRow :=
  df.filter (fun r => !(check_etf_keywords r.name))

/-- data_filters.remove_duplicates: `df.drop_duplicates()` keeps the first
occurrence of each duplicated row. -/
def remove_duplicates (df : List RawRow) : List RawRow := dedupFirst df

/-- data_filters.clean_missing_data: `df.dropna(subset=["symbol", "name"])`
drops a row when either the symbol or the name cell is missing. -/
def clean_missing_data (df : List RawRow) : List RawRow :=
  df.filter (fun r => r.symbol.isSome && r.name.isSome)

/-- A row of the standardized tickers table: columns renamed to
`ticker`/`title`. -/
structure TickRow where
  ticker : Option Str
  title : Option Str
deriving DecidableEq

/-- data_filters.standardize_columns: rename symbol → ticker, name → title. -/
def standardize_columns (df : List RawRow) : List TickRow :=
  df.map (fun r => ⟨r.symbol, r.name⟩)

/-- validators.validate_data: the frame is valid when non-empty and neither
required column is entirely null. -/
def validate_data (df : List TickRow) : Bool :=
  !df.isEmpty && !(df.all (fun r => r.ticker.isNone))
    && !(df.all (fun r => r.title.isNone))

/-- RawDataProcessorService.process_raw_ticker_data: the five-step pipeline,
raising (modelled as `Except.error`) when validation fails. -/
def process_raw_ticker_data (raw_df : List RawRow) : Except Str (List TickRow) :=
  let df1 := filter_by_asset_type raw_df
  let df2 := filter_etfs df1
  let df3 := remove_duplicates df2
  let df4 := clean_missing_data df3
  let df5 := standardize_columns df4
  if validate_data df5 then Except.ok df5
  else Except.error "No valid ticker data remains after filtering".data

/-! ## Derived definitions used in the statements and proofs -/

/-- Reference formulation of first-seen deduplication: keep the head,
delete its later duplicates, recurse on the remainder. -/
def firstSeenDedup {α : Type} [DecidableEq α] : List α → List α
  | [] => []
  | a :: as => a :: firstSeenDedup (as.filter (fun x => decide (x ≠ a)))
termination_by l => l.length
decreasing_by
  simp only [List.length_cons]
  exact Nat.lt_succ_of_le (List.length_filter_le _ _)

/-- The tickers the preparer loop appends: the non-null tickers of the
surfaced candidates, in rank order. -/
def ticksOf (l : List (Nat × Scored)) : List Str :=
  l.filterMap (fun ic => ic.2.row_ticker)

/-- The TopMatch entries the preparer loop appends: one per surfaced
candidate with a non-null ticker, with Rank = enumeration index + 1. -/
def topsOf (l : List (Nat × Scored)) : List TopMatch :=
  l.filterMap (fun ic =>
    ic.2.row_ticker.map (fun t => ⟨ic.1 + 1, ic.2.row_title, some t, ic.2.combined_score⟩))

/-- A fuzzy-matcher stand-in that always fails with an empty pool; used to
instantiate the orchestrator's injected fuzzy stage at concrete inputs. -/
def constNotFoundFuzzy : Str → List Entry → FuzzyStageOut :=
  fun _ _ => ⟨notFoundTuple "Company is not in public company list".data, []⟩

/-- Normal-form predicate for collapsed whitespace: every whitespace
character is a plain space and is never immediately followed by another
whitespace character. -/
def goodRun : Str → Bool
  | [] => true
  | [c] => !pyIsSpace c || c = ' '
  | c :: d :: rest =>
    (!pyIsSpace c || (c = ' ' && !pyIsSpace d)) && goodRun (d :: rest)

/-- The first character, if any, is not whitespace. -/
def headNotWs : Str → Bool
  | [] => true
  | c :: _ => !pyIsSpace c

/-- The last character, if any, is not whitespace. -/
def lastNotWs (l : Str) : Bool :=
  match l.getLast? with
  | none => true
  | some c => !pyIsSpace c

deriving instance DecidableEq for Except

/-! ## Properties of first-seen deduplication -/

theorem firstSeenDedup_nil {α : Type} [DecidableEq α] :
    firstSeenDedup ([] : List α) = [] := by
  simp [firstSeenDedup]

theorem firstSeenDedup_cons {α : Type} [DecidableEq α] (a : α) (as : List α) :
    firstSeenDedup (a :: as) =
      a :: firstSeenDedup (as.filter (fun x => decide (x ≠ a))) := by
  simp [firstSeenDedup]

theorem dedupFirstAux_eq {α : Type} [DecidableEq α] :
    ∀ (l seen : List α),
      dedupFirstAux l seen =
        seen.reverse ++ firstSeenDedup (l.filter (fun x => decide (x ∉ seen)))
  | [], seen => by simp [dedupFirstAux, firstSeenDedup_nil]
  | a :: as, seen => by
    by_cases h : a ∈ seen
    · have hfa : (decide (a ∉ seen)) = false := by simp [h]
      simp only [dedupFirstAux, if_pos h, List.filter_cons, hfa, if_neg,
        Bool.false_eq_true, ite_false]
      exact dedupFirstAux_eq as seen
    · have hfa : (decide (a ∉ seen)) = true := by simp [h]
      have ih := dedupFirstAux_eq as (a :: seen)
      simp only [dedupFirstAux, if_neg h, List.filter_cons, hfa, ite_true] at ih ⊢
      rw [ih, firstSeenDedup_cons, List.filter_filter]
      have hpred : ∀ x : α,
          ((decide (x ≠ a)) && (decide (x ∉ seen))) = decide (x ∉ a :: seen) := by
        intro x
        rw [← Bool.decide_and, decide_eq_decide]
        simp [List.mem_cons, not_or, and_comm]
      simp only [hpred, List.reverse_cons, List.append_assoc, List.cons_append,
        List.nil_append]

theorem dedupFirst_eq_firstSeenDedup {α : Type} [DecidableEq α] (l : List α) :
    dedupFirst l = firstSeenDedup l := by
  have h := dedupFirstAux_eq l []
  simpa [dedupFirst] using h

theorem mem_firstSeenDedup {α : Type} [DecidableEq α] :
    ∀ (l : List α) (x : α), x ∈ firstSeenDedup l ↔ x ∈ l
  | [], x => by simp [firstSeenDedup_nil]
  | a :: as, x => by
    rw [firstSeenDedup_cons]
    by_cases hxa : x = a
    · subst hxa; simp
    · have := mem_firstSeenDedup (as.filter (fun x => decide (x ≠ a))) x
      simp only [List.mem_cons, this, List.mem_filter, decide_eq_true_eq]
      constructor
      · rintro (h | ⟨h, _⟩)
        · exact Or.inl h
        · exact Or.inr h
      · rintro (h | h)
        · exact Or.inl h
        · exact Or.inr ⟨h, hxa⟩
termination_by l => l.length
decreasing_by
  simp only [List.length_cons]
  exact Nat.lt_succ_of_le (List.length_filter_le _ _)

theorem nodup_firstSeenDedup {α : Type} [DecidableEq α] :
    ∀ l : List α, (firstSeenDedup l).Nodup
  | [] => by simp [firstSeenDedup_nil]
  | a :: as => by
    rw [firstSeenDedup_cons]
    refine List.nodup_cons.2 ⟨?_, nodup_firstSeenDedup _⟩
    rw [mem_firstSeenDedup]
    simp
termination_by l => l.length
decreasing_by
  simp only [List.length_cons]
  exact Nat.lt_succ_of_le (List.length_filter_le _ _)

theorem length_firstSeenDedup_le {α : Type} [DecidableEq α] :
    ∀ l : List α, (firstSeenDedup l).length ≤ l.length
  | [] => by simp [firstSeenDedup_nil]
  | a :: as => by
    rw [firstSeenDedup_cons]
    simp only [List.length_cons, Nat.succ_le_succ_iff]
    exact le_trans (length_firstSeenDedup_le _) (List.length_filter_le _ _)
termination_by l => l.length
decreasing_by
  simp only [List.length_cons]
  exact Nat.lt_succ_of_le (List.length_filter_le _ _)

theorem nodup_dedupFirst {α : Type} [DecidableEq α] (l : List α) :
    (dedupFirst l).Nodup := by
  rw [dedupFirst_eq_firstSeenDedup]; exact nodup_firstSeenDedup l

theorem mem_dedupFirst {α : Type} [DecidableEq α] (l : List α) (x : α) :
    x ∈ dedupFirst l ↔ x ∈ l := by
  rw [dedupFirst_eq_firstSeenDedup]; exact mem_firstSeenDedup l x

theorem length_dedupFirst_le {α : Type} [DecidableEq α] (l : List α) :
    (dedupFirst l).length ≤ l.length := by
  rw [dedupFirst_eq_firstSeenDedup]; exact length_firstSeenDedup_le l

/-! ## Characterizing the preparer loop -/

theorem foldl_matchListsStep :
    ∀ (l : List (Nat × Scored)) (acc : List Str × List TopMatch),
      l.foldl matchListsStep acc = (acc.1 ++ ticksOf l, acc.2 ++ topsOf l)
  | [], acc => by simp [ticksOf, topsOf]
  | ic :: l, acc => by
    rw [List.foldl_cons, foldl_matchListsStep l]
    cases h : ic.2.row_ticker with
    | none => simp [matchListsStep, h, ticksOf, topsOf]
    | some t => simp [matchListsStep, h, ticksOf, topsOf]

theorem buildMatchLists_eq (l : List (Nat × Scored)) :
    buildMatchLists l = (ticksOf l, topsOf l) := by
  rw [buildMatchLists, foldl_matchListsStep]; simp

/-- Closed form of prepare_match_results given the sorted candidate list. -/
theorem prepare_match_results_spec (cs : List Scored) (best : Scored)
    (rest : List Scored) (h : sortByCombinedDesc cs = best :: rest) :
    prepare_match_results cs =
      some ⟨some best.row_title, best.row_ticker,
        (dedupFirst (ticksOf (((best :: rest).take
          (if (100 : ℚ) ≤ best.combined_score then 1
           else (best :: rest).length)).enum))).map some,
        best.combined_score, none,
        topsOf (((best :: rest).take
          (if (100 : ℚ) ≤ best.combined_score then 1
           else (best :: rest).length)).enum)⟩ := by
  unfold prepare_match_results
  rw [h]
  simp only [buildMatchLists_eq]

/-- Every TopMatch the preparer emits has Rank at least n + 1 when the
enumeration starts at n. -/
theorem rank_ge_of_mem_topsOf :
    ∀ (l : List Scored) (n : Nat) (m : TopMatch),
      m ∈ topsOf (List.enumFrom n l) → n + 1 ≤ m.Rank
  | [], n, m => by simp [topsOf]
  | c :: cs, n, m => by
    intro hm
    rw [List.enumFrom_cons] at hm
    cases h : c.row_ticker with
    | none =>
      rw [topsOf, List.filterMap_cons] at hm
      simp only [h, Option.map_none] at hm
      have := rank_ge_of_mem_topsOf cs (n + 1) m hm
      omega
    | some t =>
      rw [topsOf, List.filterMap_cons] at hm
      simp only [h, Option.map_some] at hm
      rcases List.mem_cons.1 hm with rfl | hm
      · simp
      · have := rank_ge_of_mem_topsOf cs (n + 1) m hm
        omega

/-- The Rank values the preparer emits are strictly increasing. -/
theorem rank_pairwise_lt_topsOf :
    ∀ (l : List Scored) (n : Nat),
      List.Pairwise (fun a b => a.Rank < b.Rank) (topsOf (List.enumFrom n l))
  | [], n => by simp [topsOf]
  | c :: cs, n => by
    rw [List.enumFrom_cons]
    cases h : c.row_ticker with
    | none =>
      rw [topsOf, List.filterMap_cons]
      simp only [h, Option.map_none]
      exact rank_pairwise_lt_topsOf cs (n + 1)
    | some t =>
      rw [topsOf, List.filterMap_cons]
      simp only [h, Option.map_some]
      refine List.pairwise_cons.2 ⟨?_, rank_pairwise_lt_topsOf cs (n + 1)⟩
      intro m hm
      have := rank_ge_of_mem_topsOf cs (n + 1) m hm
      show n + 1 < m.Rank
      omega

/-- Every TopMatch the preparer emits carries a non-null ticker. -/
theorem ticker_isSome_of_mem_topsOf (l : List (Nat × Scored)) (m : TopMatch)
    (hm : m ∈ topsOf l) : m.ticker.isSome := by
  rw [topsOf, List.mem_filterMap] at hm
  obtain ⟨ic, _, hmap⟩ := hm
  cases h : ic.2.row_ticker with
  | none => rw [h] at hmap; exact absurd hmap (by simp)
  | some t =>
    rw [h] at hmap
    have hm2 := Option.some.inj hmap
    rw [← hm2]
    rfl

/-! ## Sorting and exact-match bridging lemmas -/

theorem sortByCombinedDesc_perm (cs : List Scored) :
    (sortByCombinedDesc cs).Perm cs :=
  List.perm_insertionSort byCombinedDesc cs

theorem sortByCombinedDesc_sorted (cs : List Scored) :
    List.Sorted byCombinedDesc (sortByCombinedDesc cs) :=
  List.sorted_insertionSort byCombinedDesc cs

/-- The head of the descending sort bounds every candidate's combined score. -/
theorem head_sortByCombinedDesc_max (cs : List Scored) (best : Scored)
    (rest : List Scored) (h : sortByCombinedDesc cs = best :: rest) :
    ∀ c ∈ cs, c.combined_score ≤ best.combined_score := by
  intro c hc
  have hmem : c ∈ best :: rest := by
    rw [← h]
    exact ((sortByCombinedDesc_perm cs).symm.mem_iff).1 hc
  rcases List.mem_cons.1 hmem with rfl | hmem
  · exact le_refl _
  · have hs := sortByCombinedDesc_sorted cs
    rw [h] at hs
    exact List.rel_of_sorted_cons hs c hmem

/-- find_exact_match is the `map` of the outcome builder over the first
row whose lowercased title equals the lowercased query. -/
theorem find_exact_match_eq_find? :
    ∀ (q : Str) (df : List Entry),
      find_exact_match q df =
        (df.find? (fun e =>
          convert_to_lowercase e.title == convert_to_lowercase q)).map exactOutcome
  | _, [] => rfl
  | q, e :: es => by
    cases h : (convert_to_lowercase e.title == convert_to_lowercase q) with
    | true =>
      simp only [find_exact_match, List.filter_cons, h, ite_true,
        List.find?_cons]
      rfl
    | false =>
      have ih := find_exact_match_eq_find? q es
      simp only [find_exact_match, List.filter_cons, h, Bool.false_eq_true,
        ite_false, List.find?_cons, h] at ih ⊢
      exact ih

theorem prepare_match_results_none (cs : List Scored)
    (h : sortByCombinedDesc cs = []) : prepare_match_results cs = none := by
  unfold prepare_match_results
  rw [h]

/-! ## Claim theorems: fuzzy result preparer -/

/-- C6: whenever some scored candidate has combined score at least 100.0,
the prepared fuzzy result is collapsed to the single top candidate: both
all_possible_tickers and top_matches have length at most 1. -/
theorem perfect_fuzzy_collapse (cs : List Scored) (r : MatchTuple)
    (hr : prepare_match_results cs = some r)
    (hs : ∃ c ∈ cs, (100 : ℚ) ≤ c.combined_score) :
    r.all_possible_tickers.length ≤ 1 ∧ r.top_matches.length ≤ 1 := by
  cases h : sortByCombinedDesc cs with
  | nil => rw [prepare_match_results_none cs h] at hr; exact absurd hr (by simp)
  | cons best rest =>
    have hspec := prepare_match_results_spec cs best rest h
    rw [hspec] at hr
    have h2 := Option.some.inj hr
    obtain ⟨c, hc, h100⟩ := hs
    have hb : (100 : ℚ) ≤ best.combined_score :=
      le_trans h100 (head_sortByCombinedDesc_max cs best rest h c hc)
    rw [← h2]
    simp only [if_pos hb]
    constructor
    · calc ((dedupFirst (ticksOf (((best :: rest).take 1).enum))).map some).length
          = (dedupFirst (ticksOf (((best :: rest).take 1).enum))).length :=
            List.length_map _ _
        _ ≤ (ticksOf (((best :: rest).take 1).enum)).length :=
            length_dedupFirst_le _
        _ ≤ (((best :: rest).take 1).enum).length :=
            List.length_filterMap_le _ _
        _ ≤ 1 := by simp
    · calc (topsOf (((best :: rest).take 1).enum)).length
          ≤ (((best :: rest).take 1).enum).length :=
            List.length_filterMap_le _ _
        _ ≤ 1 := by simp

/-- C8 (amended): on every successful prepared fuzzy result the message is
null, matched_name is the winning (top-sorted) entry's raw title and
predicted_ticker its (possibly null) ticker, and every surfaced TopMatch
carries a non-null ticker — a null-ticker candidate is excluded from
top_matches as well as from all_possible_tickers. -/
theorem fuzzy_success_shape (cs : List Scored) (r : MatchTuple)
    (hr : prepare_match_results cs = some r) :
    r.message = none ∧
    (∃ best rest, sortByCombinedDesc cs = best :: rest ∧
      r.matched_name = some best.row_title ∧
      r.predicted_ticker = best.row_ticker) ∧
    (∀ m ∈ r.top_matches, m.ticker.isSome) := by
  cases h : sortByCombinedDesc cs with
  | nil => rw [prepare_match_results_none cs h] at hr; exact absurd hr (by simp)
  | cons best rest =>
    have hspec := prepare_match_results_spec cs best rest h
    rw [hspec] at hr
    have h2 := Option.some.inj hr
    refine ⟨?_, ⟨best, rest, rfl, ?_, ?_⟩, ?_⟩
    · rw [← h2]
    · rw [← h2]
    · rw [← h2]
    · rw [← h2]
      intro m hm
      exact ticker_isSome_of_mem_topsOf _ m hm

/-- C8 counterexample: a fuzzy stage whose winning candidate has a null
ticker produces an outcome whose top_matches list is empty — the null
winner does NOT appear in top_matches, contrary to the claim. -/
theorem null_ticker_absent_from_top_matches :
    prepare_match_results [⟨"NullCo".data, none, 95, 95, 95⟩] =
      some ⟨some "NullCo".data, none, [], 95, none, []⟩ := by
  decide

/-- C10: each surfaced TopMatch's Rank is one plus that candidate's
position in the sorted candidate list (the enumeration index), not its
position within top_matches, and the Rank values are strictly increasing. -/
theorem topmatch_rank_positions (cs : List Scored) (r : MatchTuple)
    (hr : prepare_match_results cs = some r) :
    (∃ best rest, sortByCombinedDesc cs = best :: rest ∧
      r.top_matches = topsOf (((best :: rest).take
        (if (100 : ℚ) ≤ best.combined_score then 1
         else (best :: rest).length)).enum)) ∧
    List.Pairwise (fun a b => a.Rank < b.Rank) r.top_matches := by
  cases h : sortByCombinedDesc cs with
  | nil => rw [prepare_match_results_none cs h] at hr; exact absurd hr (by simp)
  | cons best rest =>
    have hspec := prepare_match_results_spec cs best rest h
    rw [hspec] at hr
    have h2 := Option.some.inj hr
    constructor
    · exact ⟨best, rest, rfl, by rw [← h2]⟩
    · rw [← h2]
      exact rank_pairwise_lt_topsOf _ 0

/-- C10 witness: three sorted candidates where the middle one has a null
ticker; the surfaced ranks are 1 and 3 (the integer 2 is skipped). -/
theorem topmatch_rank_positions_witness :
    prepare_match_results
        [⟨"A".data, some "AA".data, 95, 95, 95⟩,
         ⟨"B".data, none, 93, 93, 93⟩,
         ⟨"C".data, some "CC".data, 91, 91, 91⟩] =
      some ⟨some "A".data, some "AA".data,
        [some "AA".data, some "CC".data], 95, none,
        [⟨1, "A".data, some "AA".data, 95⟩,
         ⟨3, "C".data, some "CC".data, 91⟩]⟩ ∧
    List.Pairwise (fun a b => a.Rank < b.Rank)
      [(⟨1, "A".data, some "AA".data, 95⟩ : TopMatch),
       ⟨3, "C".data, some "CC".data, 91⟩] :=
  ⟨by decide,
   by
    have h := topmatch_rank_positions
      [⟨"A".data, some "AA".data, 95, 95, 95⟩,
       ⟨"B".data, none, 93, 93, 93⟩,
       ⟨"C".data, some "CC".data, 91, 91, 91⟩]
      ⟨some "A".data, some "AA".data,
        [some "AA".data, some "CC".data], 95, none,
        [⟨1, "A".data, some "AA".data, 95⟩,
         ⟨3, "C".data, some "CC".data, 91⟩]⟩
      (by decide)
    exact h.2⟩

/-- C6 witness: two candidates whose top combined score is exactly 100;
the result is collapsed to a single ticker and a single TopMatch. -/
theorem perfect_fuzzy_collapse_witness :
    (prepare_match_results
        [⟨"P".data, some "PP".data, 100, 100, 100⟩,
         ⟨"Q".data, some "QQ".data, 95, 95, 95⟩] =
      some ⟨some "P".data, some "PP".data, [some "PP".data], 100, none,
        [⟨1, "P".data, some "PP".data, 100⟩]⟩) ∧
    ([some "PP".data].length ≤ 1 ∧
      [(⟨1, "P".data, some "PP".data, 100⟩ : TopMatch)].length ≤ 1) :=
  ⟨by decide,
   perfect_fuzzy_collapse
     [⟨"P".data, some "PP".data, 100, 100, 100⟩,
      ⟨"Q".data, some "QQ".data, 95, 95, 95⟩]
     ⟨some "P".data, some "PP".data, [some "PP".data], 100, none,
       [⟨1, "P".data, some "PP".data, 100⟩]⟩
     (by decide)
     ⟨⟨"P".data, some "PP".data, 100, 100, 100⟩, by decide⟩⟩

/-- C8 witness: a two-candidate fuzzy result where the runner-up has a
null ticker; the success shape holds at this concrete input. -/
theorem fuzzy_success_shape_witness :
    (prepare_match_results
        [⟨"W".data, some "WW".data, 96, 96, 96⟩,
         ⟨"V".data, none, 92, 92, 92⟩] =
      some ⟨some "W".data, some "WW".data, [some "WW".data], 96, none,
        [⟨1, "W".data, some "WW".data, 96⟩]⟩) ∧
    ((⟨some "W".data, some "WW".data, [some "WW".data], 96, none,
        [⟨1, "W".data, some "WW".data, 96⟩]⟩ : MatchTuple).message = none ∧
      ∀ m ∈ (⟨some "W".data, some "WW".data, [some "WW".data], 96, none,
        [⟨1, "W".data, some "WW".data, 96⟩]⟩ : MatchTuple).top_matches,
        m.ticker.isSome) :=
  ⟨by decide,
   by
    have h := fuzzy_success_shape
      [⟨"W".data, some "WW".data, 96, 96, 96⟩,
       ⟨"V".data, none, 92, 92, 92⟩]
      ⟨some "W".data, some "WW".data, [some "WW".data], 96, none,
        [⟨1, "W".data, some "WW".data, 96⟩]⟩
      (by decide)
    exact ⟨h.1, h.2.2⟩⟩

/-- Definitional unfolding of the fallback on a successful transport. -/
theorem try_openai_fallback_some (answer : Str) (cands : List OAICandidate) :
    try_openai_fallback (some answer) cands =
      (match (process_matching_response answer cands).2 with
       | none => notFoundTuple "Company is not in public company list".data
       | some selected =>
         if ((process_matching_response answer cands).1 == "None".data) = true then
           notFoundTuple "Company is not in public company list".data
         else ⟨some selected.company_name, selected.ticker, [selected.ticker],
               selected.score, none,
               [⟨1, selected.company_name, selected.ticker, selected.score⟩]⟩) := rfl

/-! ## Claim theorems: all_possible_tickers invariant and LLM fallback -/

/-- C4 counterexample: a fallback success whose model answer carries no
`(Ticker: ...)` part puts a null entry into all_possible_tickers. -/
theorem all_possible_tickers_null_counterexample :
    (try_openai_fallback (some "Alphabet Inc.".data) []).all_possible_tickers
      = [none] ∧
    none ∈ (try_openai_fallback (some "Alphabet Inc.".data) []).all_possible_tickers := by
  decide

/-- C4 (amended): in the exact and fuzzy stages all_possible_tickers never
contains a null and never contains duplicates, and in the fuzzy stage its
order is the first-seen order of the surfaced candidates' tickers; in the
LLM fallback stage, however, a success returns the single-element list
holding the selected ticker, which is null when that ticker is null. -/
theorem all_possible_tickers_invariant_amended :
    (∀ (q : Str) (df : List Entry) (r : MatchTuple),
      find_exact_match q df = some r →
        none ∉ r.all_possible_tickers ∧ r.all_possible_tickers.Nodup) ∧
    (∀ (cs : List Scored) (r : MatchTuple),
      prepare_match_results cs = some r →
        none ∉ r.all_possible_tickers ∧ r.all_possible_tickers.Nodup ∧
        ∃ best rest, sortByCombinedDesc cs = best :: rest ∧
          r.all_possible_tickers =
            (firstSeenDedup (ticksOf (((best :: rest).take
              (if (100 : ℚ) ≤ best.combined_score then 1
               else (best :: rest).length)).enum))).map some) ∧
    (∀ (transport : Option Str) (cands : List OAICandidate),
      (try_openai_fallback transport cands).message = none →
        (try_openai_fallback transport cands).all_possible_tickers =
          [(try_openai_fallback transport cands).predicted_ticker]) := by
  refine ⟨?_, ?_, ?_⟩
  · intro q df r hr
    rw [find_exact_match_eq_find?] at hr
    obtain ⟨e, _, he⟩ := Option.map_eq_some'.1 hr
    rw [← he]
    cases ht : e.ticker with
    | none => simp [exactOutcome, ht]
    | some t => simp [exactOutcome, ht]
  · intro cs r hr
    cases h : sortByCombinedDesc cs with
    | nil => rw [prepare_match_results_none cs h] at hr; exact absurd hr (by simp)
    | cons best rest =>
      have hspec := prepare_match_results_spec cs best rest h
      rw [hspec] at hr
      have h2 := Option.some.inj hr
      rw [← h2]
      refine ⟨?_, ?_, best, rest, rfl, ?_⟩
      · intro hmem
        rcases List.mem_map.1 hmem with ⟨t, _, hteq⟩
        exact Option.noConfusion hteq
      · exact (List.nodup_map_iff (fun a b => Option.some.inj)).2
          (nodup_dedupFirst _)
      · rw [dedupFirst_eq_firstSeenDedup]
  · intro transport cands hmsg
    cases transport with
    | none => exact absurd hmsg (by simp [try_openai_fallback, notFoundTuple])
    | some answer =>
      rw [try_openai_fallback_some] at hmsg ⊢
      cases hsel : (process_matching_response answer cands).2 with
      | none =>
        simp only [hsel] at hmsg
        exact absurd hmsg (by simp [notFoundTuple])
      | some selected =>
        simp only [hsel] at hmsg ⊢
        by_cases hans : ((process_matching_response answer cands).1 == "None".data) = true
        · simp only [if_pos hans] at hmsg
          exact absurd hmsg (by simp [notFoundTuple])
        · simp only [if_neg hans] at hmsg ⊢

/-- C4 witness: the exact and fuzzy clauses applied at concrete inputs,
and the fallback clause at a success with a non-null ticker. -/
theorem all_possible_tickers_invariant_amended_witness :
    (none ∉ [some "AAPL".data] ∧ ([some "AAPL".data] : List (Option Str)).Nodup) ∧
    ((try_openai_fallback (some "Alphabet Inc. (Ticker: GOOGL)".data) []).message
        = none ∧
      (try_openai_fallback (some "Alphabet Inc. (Ticker: GOOGL)".data) []).all_possible_tickers
        = [(try_openai_fallback (some "Alphabet Inc. (Ticker: GOOGL)".data) []).predicted_ticker]) :=
  ⟨by
    have h := all_possible_tickers_invariant_amended.1 "apple inc".data
      [⟨some "AAPL".data, "Apple Inc".data, "apple".data⟩]
      ⟨some "Apple Inc".data, some "AAPL".data, [some "AAPL".data], 100, none,
        [⟨1, "Apple Inc".data, some "AAPL".data, 100⟩]⟩
      (by decide)
    exact h,
   ⟨by decide,
    all_possible_tickers_invariant_amended.2.2
      (some "Alphabet Inc. (Ticker: GOOGL)".data) [] (by decide)⟩⟩

/-- C9 counterexample: when the model answer reconciles with an input
candidate, the success outcome carries the candidate's prior fuzzy score
(85 here), not 95.0. -/
theorem llm_fallback_score_counterexample :
    (try_openai_fallback (some "Foo Inc".data)
        [⟨"Foo Inc".data, some "FOO".data, 85⟩]).message = none ∧
    (try_openai_fallback (some "Foo Inc".data)
        [⟨"Foo Inc".data, some "FOO".data, 85⟩]).top_matches =
      [⟨1, "Foo Inc".data, some "FOO".data, 85⟩] ∧
    ¬((try_openai_fallback (some "Foo Inc".data)
        [⟨"Foo Inc".data, some "FOO".data, 85⟩]).name_match_score = 95) := by
  decide

/-- C9 (amended): every successful fallback outcome carries exactly one
TopMatch, at rank 1, whose score equals the outcome score; that score is
95.0 on the fresh-answer path (no candidate reconciles) and the
reconciled candidate's own prior score otherwise. -/
theorem llm_fallback_success_shape (answer : Str) (cands : List OAICandidate)
    (hmsg : (try_openai_fallback (some answer) cands).message = none) :
    ((try_openai_fallback (some answer) cands).top_matches =
      [⟨1, (try_openai_fallback (some answer) cands).matched_name.getD [],
        (try_openai_fallback (some answer) cands).predicted_ticker,
        (try_openai_fallback (some answer) cands).name_match_score⟩]) ∧
    (∀ c, cands.find? (fun c =>
        (extract_company_and_ticker c.company_name).1 ==
          (extract_company_and_ticker answer).1) = some c →
      (try_openai_fallback (some answer) cands).name_match_score = c.score) ∧
    (cands.find? (fun c =>
        (extract_company_and_ticker c.company_name).1 ==
          (extract_company_and_ticker answer).1) = none →
      (try_openai_fallback (some answer) cands).name_match_score = 95) := by
  rw [try_openai_fallback_some] at hmsg ⊢
  cases hsel : (process_matching_response answer cands).2 with
  | none =>
    simp only [hsel] at hmsg
    exact absurd hmsg (by simp [notFoundTuple])
  | some selected =>
    simp only [hsel] at hmsg ⊢
    by_cases hans : ((process_matching_response answer cands).1 == "None".data) = true
    · simp only [if_pos hans] at hmsg
      exact absurd hmsg (by simp [notFoundTuple])
    · simp only [if_neg hans] at hmsg ⊢
      refine ⟨rfl, ?_, ?_⟩
      · intro c hfind
        have : (process_matching_response answer cands).2 = some c := by
          unfold process_matching_response
          simp only [hfind]
        rw [hsel] at this
        rw [Option.some.inj this]
      · intro hfind
        have hfresh : (process_matching_response answer cands).2 =
            if convert_to_lowercase answer == "none".data then none
            else some ⟨(extract_company_and_ticker answer).1,
              (extract_company_and_ticker answer).2, 95⟩ := by
          unfold process_matching_response
          simp only [hfind]
        rw [hsel] at hfresh
        by_cases hlow : (convert_to_lowercase answer == "none".data) = true
        · rw [if_pos hlow] at hfresh
          exact absurd hfresh (by simp)
        · rw [if_neg hlow] at hfresh
          rw [Option.some.inj hfresh]

/-- C9 witness: a fresh-answer fallback success (no candidate reconciles)
has score 95 and a single rank-1 TopMatch. -/
theorem llm_fallback_success_shape_witness :
    (try_openai_fallback (some "Alphabet Inc. (Ticker: GOOGL)".data) []).top_matches =
      [⟨1, (try_openai_fallback (some "Alphabet Inc. (Ticker: GOOGL)".data) []).matched_name.getD [],
        (try_openai_fallback (some "Alphabet Inc. (Ticker: GOOGL)".data) []).predicted_ticker,
        (try_openai_fallback (some "Alphabet Inc. (Ticker: GOOGL)".data) []).name_match_score⟩] ∧
    (try_openai_fallback (some "Alphabet Inc. (Ticker: GOOGL)".data) []).name_match_score = 95 :=
  ⟨(llm_fallback_success_shape "Alphabet Inc. (Ticker: GOOGL)".data [] (by decide)).1,
   (llm_fallback_success_shape "Alphabet Inc. (Ticker: GOOGL)".data [] (by decide)).2.2
     (by decide)⟩

/-! ## Claim theorems: strategy orchestrator -/

/-- Definitional unfolding of the orchestrator on a string query. -/
theorem orchestrate_matching_strategy_str
    (fz : Str → List Entry → FuzzyStageOut) (avail : Bool) (tr : Option Str)
    (q : Str) (df : List Entry) :
    orchestrate_matching_strategy fz avail tr (.str q) df =
      (match find_exact_match q df with
       | some exact_result => exact_result
       | none =>
         let fuzzy_result := fz (preprocessL q) df
         if fuzzy_result.result.matched_name.isSome then fuzzy_result.result
         else if avail then
           try_openai_fallback tr (prepare_openai_candidates fuzzy_result.pool df)
         else notFoundTuple "Company is not in public company list".data) := rfl

/-- C1: if some corpus entry's raw title, lowercased, equals the lowercased
query, the orchestrator returns the exact-match outcome of the FIRST such
entry in corpus order with score 100, for every injected fuzzy matcher and
every OpenAI availability/transport — so neither later stage can influence
the result. -/
theorem exact_match_precedence (df : List Entry) (q : Str)
    (fz : Str → List Entry → FuzzyStageOut) (avail : Bool) (tr : Option Str)
    (h : ∃ e ∈ df, convert_to_lowercase e.title = convert_to_lowercase q) :
    ∃ e, df.find? (fun e =>
        convert_to_lowercase e.title == convert_to_lowercase q) = some e ∧
      orchestrate_matching_strategy fz avail tr (.str q) df = exactOutcome e ∧
      (exactOutcome e).name_match_score = 100 ∧
      (exactOutcome e).matched_name = some e.title := by
  have hsome : (df.find? (fun e =>
      convert_to_lowercase e.title == convert_to_lowercase q)).isSome := by
    rw [List.find?_isSome]
    obtain ⟨e, he, heq⟩ := h
    exact ⟨e, he, by simpa using heq⟩
  obtain ⟨e, he⟩ := Option.isSome_iff_exists.1 hsome
  have hfe : find_exact_match q df = some (exactOutcome e) := by
    rw [find_exact_match_eq_find?, he]
    rfl
  refine ⟨e, he, ?_, ?_, ?_⟩
  · rw [orchestrate_matching_strategy_str]
    simp only [hfe]
  · cases ht : e.ticker <;> simp [exactOutcome, ht]
  · cases ht : e.ticker <;> simp [exactOutcome, ht]

/-- C1 witness: a one-entry corpus matched case-insensitively; the
orchestrator (with a failing fuzzy stage and no OpenAI) returns the exact
outcome. -/
theorem exact_match_precedence_witness :
    ∃ e, ([⟨some "AAPL".data, "Apple Inc".data, "apple".data⟩] :
        List Entry).find? (fun e =>
        convert_to_lowercase e.title == convert_to_lowercase "APPLE INC".data)
        = some e ∧
      orchestrate_matching_strategy constNotFoundFuzzy false none
        (.str "APPLE INC".data)
        [⟨some "AAPL".data, "Apple Inc".data, "apple".data⟩] = exactOutcome e ∧
      (exactOutcome e).name_match_score = 100 ∧
      (exactOutcome e).matched_name = some e.title :=
  exact_match_precedence
    [⟨some "AAPL".data, "Apple Inc".data, "apple".data⟩]
    "APPLE INC".data constNotFoundFuzzy false none
    ⟨⟨some "AAPL".data, "Apple Inc".data, "apple".data⟩, by decide, by decide⟩

/-- C7 counterexample: the blank-after-trim query " " is not rejected: the
exact stage runs and can even succeed (corpus title " "), yielding a
score-100 success outcome rather than a failure-shaped one. -/
theorem invalid_query_counterexample :
    orchestrate_matching_strategy constNotFoundFuzzy false none
        (.str " ".data) [⟨some "A".data, " ".data, "".data⟩] =
      ⟨some " ".data, some "A".data, [some "A".data], 100, none,
        [⟨1, " ".data, some "A".data, 100⟩]⟩ := by
  decide

/-- C7 (amended): only non-string queries are rejected before any matching
stage runs (with the failure-shaped tuple), for every corpus and every
injected stage; a blank-after-trim string query instead proceeds into the
cascade, where it can even produce an exact-match success. -/
theorem invalid_query_amended :
    (∀ (df : List Entry) (fz : Str → List Entry → FuzzyStageOut)
        (avail : Bool) (tr : Option Str),
      orchestrate_matching_strategy fz avail tr .nonStr df =
        notFoundTuple "Company is not in public company list".data) ∧
    ((orchestrate_matching_strategy constNotFoundFuzzy false none
        (.str " ".data) [⟨some "A".data, " ".data, "".data⟩]).name_match_score
          = 100 ∧
      (orchestrate_matching_strategy constNotFoundFuzzy false none
        (.str " ".data) [⟨some "A".data, " ".data, "".data⟩]).message = none) :=
  ⟨fun _ _ _ _ => rfl, by decide, by decide⟩

/-! ## Claim theorems: raw-data preparation (reference-set preparer) -/

/-- C5 counterexample: a raw row with a present title ("Solo Co") but a
missing ticker does not survive preparation — dropna on the symbol column
removes it — while the fully-populated row does. -/
theorem title_only_entry_dropped :
    process_raw_ticker_data
        [⟨none, some "Solo Co".data, some "Stock".data⟩,
         ⟨some "AAA".data, some "Alpha Metals".data, some "Stock".data⟩] =
      Except.ok [⟨some "AAA".data, some "Alpha Metals".data⟩] := by
  decide

/-- C5 (amended): the preparation pipeline drops an entry when EITHER its
ticker or its title is missing: every surviving row has both fields
present, so a ticker-missing, title-present entry never reaches the
matchable corpus. -/
theorem prepare_requires_ticker_and_title (raw : List RawRow)
    (out : List TickRow) (h : process_raw_ticker_data raw = Except.ok out) :
    ∀ r ∈ out, r.ticker.isSome ∧ r.title.isSome := by
  intro r hr
  unfold process_raw_ticker_data at h
  by_cases hv : validate_data (standardize_columns (clean_missing_data
      (remove_duplicates (filter_etfs (filter_by_asset_type raw))))) = true
  · rw [if_pos hv] at h
    have hout := Except.ok.inj h
    rw [← hout] at hr
    rw [standardize_columns, List.mem_map] at hr
    obtain ⟨q, hq, hqr⟩ := hr
    rw [clean_missing_data, List.mem_filter] at hq
    have hb := hq.2
    rw [Bool.and_eq_true] at hb
    rw [← hqr]
    exact hb
  · rw [if_neg hv] at h
    exact absurd h (by simp)

/-- C5 witness: the amended theorem applied to the concrete two-row raw
frame; the surviving row has both ticker and title. -/
theorem prepare_requires_ticker_and_title_witness :
    (⟨some "AAA".data, some "Alpha Metals".data⟩ : TickRow).ticker.isSome ∧
    (⟨some "AAA".data, some "Alpha Metals".data⟩ : TickRow).title.isSome :=
  prepare_requires_ticker_and_title
    [⟨none, some "Solo Co".data, some "Stock".data⟩,
     ⟨some "AAA".data, some "Alpha Metals".data, some "Stock".data⟩]
    [⟨some "AAA".data, some "Alpha Metals".data⟩]
    (by decide)
    ⟨some "AAA".data, some "Alpha Metals".data⟩ (by decide)

/-! ## Claim theorems: suffix stripping (name normalizer) -/

/-- A single pass that matches no suffix leaves the text unchanged. -/
theorem foldl_stripOneSuffix_id :
    ∀ (sfxs : List Str) (t : Str),
      (∀ sfx ∈ sfxs, endsWithL t sfx = false) →
      sfxs.foldl stripOneSuffix t = t
  | [], t, _ => rfl
  | s :: ss, t, h => by
    rw [List.foldl_cons]
    have hs : stripOneSuffix t s = t := by
      rw [stripOneSuffix, h s (by simp)]
      simp
    rw [hs]
    exact foldl_stripOneSuffix_id ss t (fun sfx hm => h sfx (by simp [hm]))

/-- C2 counterexample: the normalized form of "X Corp Ltd" is "x corp",
which still ends with the configured suffix " corp" — the suffix step does
not reach a fixed point. -/
theorem suffix_fixed_point_counterexample :
    preprocess_company_name "X Corp Ltd" = "x corp" ∧
    " corp".data ∈ COMPANY_SUFFIXES ∧
    endsWithL (preprocessL "X Corp Ltd".data) " corp".data = true := by
  decide

/-- C2 (amended): the suffix step makes exactly one pass over the ordered
suffix list — a pass that matches nothing is the identity — so stacked
suffixes out of list order are under-stripped: "X Corp Ltd" loses only
" ltd", normalizing to "x corp". -/
theorem suffix_strip_single_pass :
    (∀ t : Str, (∀ sfx ∈ COMPANY_SUFFIXES, endsWithL t sfx = false) →
      remove_company_suffixes t = t) ∧
    preprocess_company_name "X Corp Ltd" = "x corp" :=
  ⟨fun t h => foldl_stripOneSuffix_id COMPANY_SUFFIXES t h, by decide⟩

/-- C2 witness: the single-pass identity applied at the suffix-free text
"x". -/
theorem suffix_strip_single_pass_witness :
    remove_company_suffixes "x".data = "x".data :=
  suffix_strip_single_pass.1 "x".data (by decide)

/-! ## Claim theorems: normalizer idempotence -/

theorem mem_of_mem_foldl_stripOneSuffix :
    ∀ (sfxs : List Str) (t : Str) (c : Char),
      c ∈ sfxs.foldl stripOneSuffix t → c ∈ t
  | [], _, _, h => h
  | s :: ss, t, c, h => by
    rw [List.foldl_cons] at h
    have h2 := mem_of_mem_foldl_stripOneSuffix ss (stripOneSuffix t s) c h
    rw [stripOneSuffix] at h2
    by_cases he : endsWithL t s = true
    · rw [if_pos he] at h2
      exact (List.take_sublist _ _).mem h2
    · rwa [if_neg he] at h2

theorem mem_of_mem_collapseWsAux :
    ∀ (t : Str) (b : Bool) (c : Char),
      c ∈ collapseWsAux b t → c = ' ' ∨ c ∈ t
  | [], b, c, h => by simp [collapseWsAux] at h
  | d :: ds, b, c, h => by
    rw [collapseWsAux] at h
    by_cases hd : pyIsSpace d = true
    · rw [if_pos hd] at h
      cases b with
      | true =>
        simp only [ite_true] at h
        rcases mem_of_mem_collapseWsAux ds true c h with h2 | h2
        · exact Or.inl h2
        · exact Or.inr (List.mem_cons_of_mem d h2)
      | false =>
        simp only [Bool.false_eq_true, ite_false] at h
        rcases List.mem_cons.1 h with rfl | h2
        · exact Or.inl rfl
        · rcases mem_of_mem_collapseWsAux ds true c h2 with h3 | h3
          · exact Or.inl h3
          · exact Or.inr (List.mem_cons_of_mem d h3)
    · rw [if_neg hd] at h
      rcases List.mem_cons.1 h with rfl | h2
      · exact Or.inr (List.mem_cons_self _ _)
      · rcases mem_of_mem_collapseWsAux ds false c h2 with h3 | h3
        · exact Or.inl h3
        · exact Or.inr (List.mem_cons_of_mem d h3)

/-- dropTrailingWs returns a prefix of its input. -/
theorem prefix_dropTrailingWs : ∀ t : Str, dropTrailingWs t <+: t
  | [] => List.prefix_refl []
  | c :: cs => by
    rw [dropTrailingWs]
    cases h : dropTrailingWs cs with
    | nil =>
      by_cases hc : pyIsSpace c = true
      · rw [if_pos hc]
        exact List.nil_prefix
      · rw [if_neg hc]
        exact ⟨cs, rfl⟩
    | cons x xs =>
      have hp := prefix_dropTrailingWs cs
      rw [h] at hp
      obtain ⟨r, hr⟩ := hp
      exact ⟨r, by rw [List.cons_append, hr]⟩

theorem mem_of_mem_stripPy (t : Str) (c : Char) (h : c ∈ stripPy t) : c ∈ t := by
  rw [stripPy] at h
  have h2 := (prefix_dropTrailingWs (t.dropWhile pyIsSpace)).sublist.mem h
  exact (List.dropWhile_sublist _).mem h2

/-- Every character of a normalized name is a lowercase letter, a digit or
a space. -/
theorem kept_of_mem_preprocessL (l : Str) (c : Char) (h : c ∈ preprocessL l) :
    isKeptChar c = true := by
  rw [preprocessL, normalize_whitespace] at h
  have h2 := mem_of_mem_stripPy _ c h
  rw [collapseWs] at h2
  rcases mem_of_mem_collapseWsAux _ false c h2 with rfl | h3
  · decide
  · rw [remove_company_suffixes] at h3
    have h4 := mem_of_mem_foldl_stripOneSuffix COMPANY_SUFFIXES _ c h3
    rw [clean_to_alphanumeric] at h4
    exact List.of_mem_filter h4

theorem toLowerChar_eq_self_of_kept (c : Char) (h : isKeptChar c = true) :
    toLowerChar c = c := by
  rw [toLowerChar, if_neg]
  rintro ⟨hA, hZ⟩
  rw [isKeptChar, Bool.or_eq_true, Bool.or_eq_true, Bool.and_eq_true,
    Bool.and_eq_true] at h
  rcases h with (⟨ha, _⟩ | ⟨_, h9⟩) | h2
  · have : ('a' : Char) ≤ 'Z' := le_trans (of_decide_eq_true ha) hZ
    exact absurd this (by decide)
  · have : ('A' : Char) ≤ '9' := le_trans hA (of_decide_eq_true h9)
    exact absurd this (by decide)
  · have hc : c = ' ' := of_decide_eq_true h2
    rw [hc] at hA
    exact absurd hA (by decide)

theorem map_toLowerChar_eq_self :
    ∀ (l : Str), (∀ c ∈ l, isKeptChar c = true) → convert_to_lowercase l = l
  | [], _ => rfl
  | c :: cs, h => by
    rw [convert_to_lowercase, List.map_cons]
    rw [toLowerChar_eq_self_of_kept c (h c (by simp))]
    have ih := map_toLowerChar_eq_self cs (fun d hd => h d (by simp [hd]))
    rw [convert_to_lowercase] at ih
    rw [ih]

theorem goodRun_tail (c : Char) (t : Str) (h : goodRun (c :: t) = true) :
    goodRun t = true := by
  cases t with
  | nil => rfl
  | cons d ds =>
    rw [goodRun, Bool.and_eq_true] at h
    exact h.2

theorem goodRun_cons_head (c : Char) (t : Str) (h : goodRun (c :: t) = true) :
    (!pyIsSpace c || c = ' ') = true := by
  cases t with
  | nil => rwa [goodRun] at h
  | cons d ds =>
    rw [goodRun, Bool.and_eq_true] at h
    have h1 := h.1
    rw [Bool.or_eq_true] at h1 ⊢
    rcases h1 with h1 | h1
    · exact Or.inl h1
    · rw [Bool.and_eq_true] at h1
      exact Or.inr h1.1

theorem goodRun_cons_ws (c : Char) (t : Str) (h : goodRun (c :: t) = true)
    (hc : pyIsSpace c = true) : c = ' ' ∧ headNotWs t = true := by
  constructor
  · have h1 := goodRun_cons_head c t h
    rw [Bool.or_eq_true] at h1
    rcases h1 with h1 | h1
    · rw [hc] at h1
      exact absurd h1 (by decide)
    · exact of_decide_eq_true h1
  · cases t with
    | nil => rfl
    | cons d ds =>
      rw [goodRun, Bool.and_eq_true] at h
      have h1 := h.1
      rw [Bool.or_eq_true] at h1
      rcases h1 with h1 | h1
      · rw [hc] at h1
        exact absurd h1 (by decide)
      · rw [Bool.and_eq_true] at h1
        exact h1.2

theorem headNotWs_collapseWsAux_true :
    ∀ t : Str, headNotWs (collapseWsAux true t) = true
  | [] => rfl
  | c :: cs => by
    rw [collapseWsAux]
    by_cases hc : pyIsSpace c = true
    · rw [if_pos hc]
      exact headNotWs_collapseWsAux_true cs
    · rw [if_neg hc]
      show (!pyIsSpace c) = true
      rw [Bool.eq_false_iff.mpr hc]
      rfl

theorem goodRun_collapseWsAux : ∀ (t : Str) (b : Bool),
    goodRun (collapseWsAux b t) = true
  | [], _ => rfl
  | c :: cs, b => by
    rw [collapseWsAux]
    by_cases hc : pyIsSpace c = true
    · rw [if_pos hc]
      cases b with
      | true => exact goodRun_collapseWsAux cs true
      | false =>
        simp only [Bool.false_eq_true, ite_false]
        cases hX : collapseWsAux true cs with
        | nil => decide
        | cons d ds =>
          have hh := headNotWs_collapseWsAux_true cs
          rw [hX, headNotWs, Bool.not_eq_true'] at hh
          have hg := goodRun_collapseWsAux cs true
          rw [hX] at hg
          rw [goodRun, Bool.and_eq_true]
          exact ⟨by simp [hh], hg⟩
    · rw [if_neg hc]
      cases hX : collapseWsAux false cs with
      | nil =>
        rw [goodRun, Bool.or_eq_true]
        exact Or.inl (by rw [Bool.eq_false_iff.mpr hc]; rfl)
      | cons d ds =>
        have hg := goodRun_collapseWsAux cs false
        rw [hX] at hg
        rw [goodRun, Bool.and_eq_true]
        refine ⟨?_, hg⟩
        rw [Bool.or_eq_true]
        exact Or.inl (by rw [Bool.eq_false_iff.mpr hc]; rfl)

theorem prefix_goodRun : ∀ (l₁ l₂ : Str), l₁ <+: l₂ → goodRun l₂ = true →
    goodRun l₁ = true
  | [], _, _, _ => rfl
  | a :: as, l₂, hp, hg => by
    obtain ⟨r, hr⟩ := hp
    subst hr
    cases as with
    | nil =>
      show goodRun [a] = true
      rw [goodRun]
      exact goodRun_cons_head a r hg
    | cons b bs =>
      rw [goodRun, Bool.and_eq_true]
      rw [List.cons_append, List.cons_append] at hg
      constructor
      · cases hbr : bs ++ r with
        | nil =>
          rw [hbr] at hg
          rw [goodRun, Bool.and_eq_true] at hg
          exact hg.1
        | cons x xs =>
          rw [hbr] at hg
          rw [goodRun, Bool.and_eq_true] at hg
          exact hg.1
      · have hg2 : goodRun (b :: (bs ++ r)) = true := goodRun_tail _ _ hg
        exact prefix_goodRun (b :: bs) (b :: (bs ++ r)) ⟨r, rfl⟩ hg2

theorem goodRun_dropWhile : ∀ t : Str, goodRun t = true →
    goodRun (t.dropWhile pyIsSpace) = true
  | [], h => h
  | c :: cs, h => by
    rw [List.dropWhile_cons]
    by_cases hc : pyIsSpace c = true
    · rw [if_pos hc]
      exact goodRun_dropWhile cs (goodRun_tail c cs h)
    · rwa [if_neg hc]

theorem headNotWs_dropWhile : ∀ t : Str,
    headNotWs (t.dropWhile pyIsSpace) = true
  | [] => rfl
  | c :: cs => by
    rw [List.dropWhile_cons]
    by_cases hc : pyIsSpace c = true
    · rw [if_pos hc]
      exact headNotWs_dropWhile cs
    · rw [if_neg hc]
      show (!pyIsSpace c) = true
      rw [Bool.eq_false_iff.mpr hc]
      rfl

theorem lastNotWs_dropTrailingWs : ∀ t : Str, lastNotWs (dropTrailingWs t) = true
  | [] => rfl
  | c :: cs => by
    rw [dropTrailingWs]
    cases h : dropTrailingWs cs with
    | nil =>
      by_cases hc : pyIsSpace c = true
      · rw [if_pos hc]
        rfl
      · rw [if_neg hc]
        rw [lastNotWs]
        simp only [List.getLast?_singleton]
        rw [Bool.eq_false_iff.mpr hc]
        rfl
    | cons x xs =>
      have ih := lastNotWs_dropTrailingWs cs
      rw [h] at ih
      rw [lastNotWs, List.getLast?_cons_cons]
      rwa [lastNotWs] at ih

theorem headNotWs_dropTrailingWs (t : Str) (h : headNotWs t = true) :
    headNotWs (dropTrailingWs t) = true := by
  cases hX : dropTrailingWs t with
  | nil => rfl
  | cons c cs =>
    have hp := prefix_dropTrailingWs t
    rw [hX] at hp
    obtain ⟨r, hr⟩ := hp
    rw [← hr] at h
    rw [List.cons_append] at h
    exact h

theorem stripPy_goodRun (t : Str) (hg : goodRun t = true) :
    goodRun (stripPy t) = true :=
  prefix_goodRun _ _ (prefix_dropTrailingWs _) (goodRun_dropWhile t hg)

theorem stripPy_headNotWs (t : Str) : headNotWs (stripPy t) = true :=
  headNotWs_dropTrailingWs _ (headNotWs_dropWhile t)

theorem stripPy_lastNotWs (t : Str) : lastNotWs (stripPy t) = true :=
  lastNotWs_dropTrailingWs _

theorem collapseWsAux_id : ∀ t : Str, goodRun t = true →
    collapseWsAux false t = t ∧ (headNotWs t = true → collapseWsAux true t = t)
  | [], _ => ⟨rfl, fun _ => rfl⟩
  | c :: cs, hg => by
    by_cases hc : pyIsSpace c = true
    · obtain ⟨hsp, hhd⟩ := goodRun_cons_ws c cs hg hc
      have ih := collapseWsAux_id cs (goodRun_tail c cs hg)
      constructor
      · rw [collapseWsAux, if_pos hc]
        simp only [Bool.false_eq_true, ite_false]
        rw [ih.2 hhd, hsp]
      · intro hh
        rw [headNotWs, hc] at hh
        exact absurd hh (by decide)
    · have ih := collapseWsAux_id cs (goodRun_tail c cs hg)
      constructor
      · rw [collapseWsAux, if_neg hc, ih.1]
      · intro _
        rw [collapseWsAux, if_neg hc, ih.1]

theorem dropWhile_id_of_headNotWs (t : Str) (h : headNotWs t = true) :
    t.dropWhile pyIsSpace = t := by
  cases t with
  | nil => rfl
  | cons c cs =>
    rw [headNotWs, Bool.not_eq_true'] at h
    rw [List.dropWhile_cons, if_neg (by rw [h]; exact Bool.false_ne_true)]

theorem dropTrailingWs_id : ∀ t : Str, lastNotWs t = true → dropTrailingWs t = t
  | [], _ => rfl
  | [c], h => by
    rw [lastNotWs, List.getLast?_singleton, Bool.not_eq_true'] at h
    rw [dropTrailingWs, dropTrailingWs]
    rw [if_neg (by rw [h]; exact Bool.false_ne_true)]
  | c :: d :: ds, h => by
    rw [lastNotWs, List.getLast?_cons_cons] at h
    have ih := dropTrailingWs_id (d :: ds) (by rwa [lastNotWs])
    rw [dropTrailingWs, ih]

theorem stripPy_id (t : Str) (hh : headNotWs t = true)
    (hl : lastNotWs t = true) : stripPy t = t := by
  rw [stripPy, dropWhile_id_of_headNotWs t hh, dropTrailingWs_id t hl]

theorem normalize_whitespace_idem (t : Str) :
    normalize_whitespace (normalize_whitespace t) = normalize_whitespace t := by
  have hg0 : goodRun (collapseWs t) = true := goodRun_collapseWsAux t false
  have hg := stripPy_goodRun (collapseWs t) hg0
  have hh := stripPy_headNotWs (collapseWs t)
  have hl := stripPy_lastNotWs (collapseWs t)
  have hcol : collapseWs (stripPy (collapseWs t)) = stripPy (collapseWs t) :=
    (collapseWsAux_id _ hg).1
  calc normalize_whitespace (normalize_whitespace t)
      = stripPy (collapseWs (stripPy (collapseWs t))) := rfl
    _ = stripPy (stripPy (collapseWs t)) := by rw [hcol]
    _ = stripPy (collapseWs t) := stripPy_id _ hh hl
    _ = normalize_whitespace t := rfl

/-- C3 (amended): the normalizer is idempotent on every string whose
normalized form does not end with a configured suffix; it is not
idempotent in general, because the single-pass suffix step can leave a
configured suffix at the end of its output. -/
theorem normalizer_idempotent_on_suffix_free (l : Str)
    (h : ∀ sfx ∈ COMPANY_SUFFIXES, endsWithL (preprocessL l) sfx = false) :
    preprocessL (preprocessL l) = preprocessL l := by
  have hkept := kept_of_mem_preprocessL l
  show normalize_whitespace (remove_company_suffixes (clean_to_alphanumeric
    (convert_to_lowercase (preprocessL l)))) = preprocessL l
  rw [map_toLowerChar_eq_self _ (fun c hc => hkept c hc)]
  rw [clean_to_alphanumeric, List.filter_eq_self.2 (fun c hc => hkept c hc)]
  rw [remove_company_suffixes, foldl_stripOneSuffix_id _ _ h]
  exact normalize_whitespace_idem
    (remove_company_suffixes (clean_to_alphanumeric (convert_to_lowercase l)))

/-- C3 counterexample: the normalizer is not idempotent: "X Corp Ltd"
normalizes to "x corp", which normalizes further to "x". -/
theorem normalizer_idempotence_counterexample :
    preprocess_company_name (preprocess_company_name "X Corp Ltd") ≠
      preprocess_company_name "X Corp Ltd" := by
  decide

/-- C3 witness: idempotence at "Apple Inc" (normal form "apple", which
ends with no configured suffix). -/
theorem normalizer_idempotent_witness :
    preprocessL (preprocessL "Apple Inc".data) = preprocessL "Apple Inc".data :=
  normalizer_idempotent_on_suffix_free "Apple Inc".data (by decide)
